import Mathlib

/-!
A shallow embedding of the wot++ recursive-descent parser
(`src/frontend/parser/parser.cpp`) together with theorems about its
string-literal decoding, block parsing, concatenation and parameter-list
handling.  Source strings and byte buffers are modelled as `List Char`,
byte values as `Nat`.
-/

namespace wpp

/-- Modelled from the spec: `wpp::is_whitespace` lives in `frontend/char.hpp`,
which is not part of the sources; the spec's lexer section treats whitespace
as the usual ASCII blank bytes (space, tab, newline, carriage return,
vertical tab, form feed). -/
def is_whitespace (c : Char) : Bool :=
  c = ' ' || c = '\t' || c = '\n' || c = '\r' || c = '\x0b' || c = '\x0c'

/-- Modelled from the spec: `wpp::hex_to_digit` lives in `misc/util/util.hpp`,
which is not part of the sources; it converts one ASCII hex digit to its
value (the spec's `\xHH` escapes and hex literals use ASCII hex digits). -/
def hex_to_digit (c : Char) : Nat :=
  if 48 ≤ c.toNat ∧ c.toNat ≤ 57 then c.toNat - 48
  else if 97 ≤ c.toNat ∧ c.toNat ≤ 102 then c.toNat - 97 + 10
  else if 65 ≤ c.toNat ∧ c.toNat ≤ 70 then c.toNat - 65 + 10
  else 0

/-! ### Paragraph strings (`para_string`, parser.cpp lines 221-240) -/

/-- Worker for the `std::unique` pass of `para_string`: `a` is the last kept
byte, and a following byte is dropped whenever it and `a` are both
whitespace. -/
def collapseWsGo (a : Char) : List Char → List Char
  | [] => [a]
  | b :: cs =>
    if is_whitespace a && is_whitespace b then collapseWsGo a cs
    else a :: collapseWsGo b cs

/-- The `std::unique` pass of `para_string`: collapse every run of
consecutive whitespace down to its first byte. -/
def collapseWs : List Char → List Char
  | [] => []
  | a :: rest => collapseWsGo a rest

/-- The replacement loop of `para_string`: a whitespace byte becomes a
literal space. -/
def wsToSpace (c : Char) : Char :=
  if is_whitespace c then ' ' else c

/-- `para_string`: collapse whitespace runs, replace each whitespace byte by a
space, then strip one leading and one trailing whitespace byte.  The C++
reads `str.front()` and `str.back()` without an emptiness guard; those
undefined reads are modelled as `none`. -/
def para_string (s : List Char) : Option (List Char) :=
  let s1 := (collapseWs s).map wsToSpace
  match s1 with
  | [] => none
  | c :: cs =>
    let s2 := if is_whitespace c then cs else c :: cs
    match s2.getLast? with
    | none => none
    | some b => some (if is_whitespace b then s2.dropLast else s2)

/-! ### Code strings (`code_string`, parser.cpp lines 243-322) -/

/-- First pass of `code_string`: walk from the back, and on the first
non-whitespace byte erase everything behind it.  If every byte is
whitespace the loop finds nothing and the string is left unchanged. -/
def trimTrailing (s : List Char) : List Char :=
  if s.all is_whitespace then s else (s.reverse.dropWhile is_whitespace).reverse

/-- Second pass of `code_string`: scan the leading whitespace; every time a
newline is hit, erase from the start of the string through that newline and
restart; stop at the first non-whitespace byte.  `pre` holds the already
scanned (kept, reversed) leading whitespace. -/
def trimLeadingGo : List Char → List Char → List Char
  | pre, [] => pre.reverse
  | pre, c :: cs =>
    if is_whitespace c then
      if c = '\n' then trimLeadingGo [] cs else trimLeadingGo (c :: pre) cs
    else pre.reverse ++ c :: cs

/-- `common_indent` update: the C++ starts from `INT_MAX` (modelled `none`)
and keeps the minimum. -/
def ciMin : Option Nat → Nat → Option Nat
  | none, n => some n
  | some m, n => if n < m then some n else some m

/-- Third pass of `code_string`, as one state machine: with `cnt = none` the
outer loop scans for a newline; with `cnt = some n` the inner loop is
counting the whitespace run after a newline, `n` bytes so far.  When the
run ends the running minimum `ci` is updated and the scan resumes after
the byte that ended the run (the C++ `for` increment skips it). -/
def commonIndentGo : Option Nat → Option Nat → List Char → Option Nat
  | ci, none, [] => ci
  | ci, some n, [] => ciMin ci n
  | ci, none, c :: cs =>
    if c = '\n' then commonIndentGo ci (some 0) cs else commonIndentGo ci none cs
  | ci, some n, c :: cs =>
    if is_whitespace c then commonIndentGo ci (some (n + 1)) cs
    else commonIndentGo (ciMin ci n) none cs

/-- Third pass of `code_string`: the minimum of the whitespace counts
following each newline (`none` when no newline was seen). -/
def commonIndent (s : List Char) : Option Nat :=
  commonIndentGo none none s

/-- The `strip` lambda of `code_string`: drop leading whitespace bytes, but
at most `ci` many of them (`none` = `INT_MAX`, i.e. no bound). -/
def dropUpTo : Option Nat → List Char → List Char
  | _, [] => []
  | ci, c :: cs =>
    if is_whitespace c then
      match ci with
      | none => dropUpTo none cs
      | some 0 => c :: cs
      | some (n + 1) => dropUpTo (some n) cs
    else c :: cs

/-- Final pass of `code_string`, as one state machine: with `st = none` the
loop scans for a newline and copies bytes; hitting a newline enters the
dropping state `st = some ci` with the full budget.  While dropping, a
whitespace byte within budget is erased; the byte that ends the dropping is
copied unexamined (the C++ `++ptr` after `strip`) and scanning resumes. -/
def stripGo (ci : Option Nat) : Option (Option Nat) → List Char → List Char
  | _, [] => []
  | none, c :: cs =>
    if c = '\n' then '\n' :: stripGo ci (some ci) cs else c :: stripGo ci none cs
  | some budget, c :: cs =>
    if is_whitespace c then
      match budget with
      | none => stripGo ci (some none) cs
      | some 0 => c :: stripGo ci none cs
      | some (n + 1) => stripGo ci (some (some n)) cs
    else c :: stripGo ci none cs

/-- `code_string` (parser.cpp lines 243-322): trim trailing whitespace, trim
the newline-terminated leading whitespace, find the minimum indentation
after the newlines, then strip that common indent after every newline (and
once at the very start of the string when it begins with whitespace; that
initial strip does not skip a byte, so scanning resumes at its result). -/
def code_string (s : List Char) : List Char :=
  let s1 := trimTrailing s
  let s2 := trimLeadingGo [] s1
  let ci := commonIndent s2
  let s3 := match s2 with
    | [] => s2
    | c :: _ => if is_whitespace c then dropUpTo ci s2 else s2
  stripGo ci none s3

/-! ### Hex and binary strings (parser.cpp lines 325-376) -/

/-- `str.back() |= v`: or the value `v` into the last accumulated byte. -/
def orLast (l : List Nat) (v : Nat) : List Nat :=
  l.dropLast ++ [l.getLastD 0 ||| v]

/-- The loop of `hex_string`: the digits arrive right-to-left, underscores
are skipped, an even count pushes a low nibble and an odd count ors the
high nibble into the last byte. -/
def hexAccum : List Char → Nat → List Nat → List Nat
  | [], _, acc => acc
  | c :: cs, counter, acc =>
    if c = '_' then hexAccum cs counter acc
    else if counter % 2 = 1 then hexAccum cs (counter + 1) (orLast acc (hex_to_digit c <<< 4))
    else hexAccum cs (counter + 1) (acc ++ [hex_to_digit c])

/-- `hex_string` (parser.cpp lines 325-349): traverse the digit view from its
end, accumulate bytes, and reverse the buffer at the end. -/
def hex_string (view : List Char) : List Nat :=
  (hexAccum view.reverse 0 []).reverse

/-- The loop of `bin_string`: right-to-left, skipping underscores; at a
counter that is a multiple of eight a new byte is pushed, otherwise the bit
is shifted by `counter % 8` and ored into the last byte. -/
def binAccum : List Char → Nat → List Nat → List Nat
  | [], _, acc => acc
  | c :: cs, counter, acc =>
    if c = '_' then binAccum cs counter acc
    else if counter % 8 ≠ 0 then
      binAccum cs (counter + 1) (orLast acc ((c.toNat - 48) <<< (counter % 8)))
    else binAccum cs (counter + 1) (acc ++ [c.toNat - 48])

/-- `bin_string` (parser.cpp lines 352-376). -/
def bin_string (view : List Char) : List Nat :=
  (binAccum view.reverse 0 []).reverse

/-! ### Smart strings (`smart_string`, parser.cpp lines 379-424)

The consumption loop works through the lexer's `string` mode, which hands
back the source bytes one chunk at a time; the loop only inspects whether
the next byte is the opening quote, so it is modelled byte by byte over the
remaining source. -/

/-- The `while (true)` loop of `smart_string`: on the quote byte, peek one
byte in `character` mode; if it equals the (first) user delimiter byte,
drop the quote just accumulated and stop, consuming the delimiter byte.
EOF inside the string raises a lex error, modelled as `none`. -/
def smartLoop (q d : Char) : List Char → Option (List Char × List Char)
  | [] => none
  | c :: cs =>
    if c = q ∧ cs.head? = some d then some ([], cs.tail)
    else
      match smartLoop q d cs with
      | some (p, r) => some (c :: p, r)
      | none => none

/-- `smart_string`'s delimiter handling: the token view holds the type
letter at index 0 and the parser reads only `tok.view.at(1)` — a single
byte — as the delimiter; an out-of-range `at` is modelled as `none`. -/
def smart_string_consume (view : List Char) (q : Char) (input : List Char) :
    Option (List Char × List Char) :=
  match view with
  | _ :: d :: _ => smartLoop q d input
  | _ => none

/-! ### Specification-side characterisations used by the theorems -/

/-- No byte equal to `q` is immediately followed by a byte equal to `d`
anywhere in the list: the terminator scan of `smart_string` would not fire
inside it. -/
def noPair (q d : Char) : List Char → Bool
  | a :: b :: cs => if a = q ∧ b = d then false else noPair q d (b :: cs)
  | _ => true

/-- No two adjacent bytes are both whitespace. -/
def noAdjWs : List Char → Bool
  | a :: b :: cs => if is_whitespace a ∧ is_whitespace b then false else noAdjWs (b :: cs)
  | _ => true

/-- Every whitespace byte is a literal space. -/
def allWsSpace (s : List Char) : Bool :=
  s.all (fun c => !is_whitespace c || decide (c = ' '))

/-- Pair up right-to-left hex digits: the first of each pair is the low
nibble, the second the high nibble; a leftover single digit becomes a byte
of its own. -/
def pairBytesRev : List Char → List Nat
  | [] => []
  | [b] => [hex_to_digit b]
  | b :: a :: rest => (hex_to_digit b ||| hex_to_digit a <<< 4) :: pairBytesRev rest

/-- The value of right-to-left bits `ds` placed starting at bit `j`. -/
def bitsVal : Nat → List Char → Nat
  | _, [] => 0
  | j, c :: cs => ((c.toNat - 48) <<< j) ||| bitsVal (j + 1) cs

/-- Group right-to-left binary digits eight at a time into byte values; a
final partial group still yields a byte. -/
def byteGroupsRev : List Char → List Nat
  | [] => []
  | c0 :: c1 :: c2 :: c3 :: c4 :: c5 :: c6 :: c7 :: rest =>
    bitsVal 0 [c0, c1, c2, c3, c4, c5, c6, c7] :: byteGroupsRev rest
  | ds => [bitsVal 0 ds]

/-- For C6: strip at most one leading whitespace byte. -/
def stripOneLeading : List Char → List Char
  | [] => []
  | c :: cs => if is_whitespace c then cs else c :: cs

/-- For C6: strip at most one trailing whitespace byte. -/
def stripOneTrailing (s : List Char) : List Char :=
  match s.getLast? with
  | some b => if is_whitespace b then s.dropLast else s
  | none => s

/-- For C6: the claim's own wording of run collapsing — keep a whitespace
byte and drop the whitespace that follows it. -/
def collapseRunsSpec : List Char → List Char
  | [] => []
  | c :: cs =>
    if is_whitespace c then c :: collapseRunsSpec (cs.dropWhile is_whitespace)
    else c :: collapseRunsSpec cs
  termination_by l => l.length
  decreasing_by
  all_goals simp only [List.length_cons]
  · exact Nat.lt_succ_of_le (List.dropWhile_sublist _).length_le
  · exact Nat.lt_succ_self _

/-- For C6: the paragraph transformation exactly as the claim words it. -/
def paraSpec (s : List Char) : List Char :=
  stripOneTrailing (stripOneLeading ((collapseRunsSpec s).map wsToSpace))

/-! ### The token-level parser

The parser proper (statements, expressions, blocks) is embedded over a
stream of already-lexed tokens.  A decoded string literal is carried as one
`tStr` token; intrinsic-name tokens (and hence the in-place
`FnInvoke`→`Intrinsic` rewrite) are not modelled, as no theorem below
concerns them.  Recursion is bounded by explicit fuel, each call passing
the predecessor; running out of fuel yields an error distinct from every
parse error. -/

/-- Tokens as the parser observes them. -/
inductive Tok where
  | tLet | tVar | tDrop | tPre | tMap | tStar | tEqual | tCat
  | tLParen | tRParen | tLBrace | tRBrace | tComma | tArrow
  | tIdent (s : String) | tStr (s : String) | tEof
  deriving DecidableEq, Repr

/-- AST nodes.  `ast_nodes.hpp` is not under src/; the payload shapes follow
the spec's node table.  The C++ stores children as indices into a flat
store; the tree is modelled directly. -/
inductive Node where
  | String (lit : String)
  | Fn (identifier : String) (parameters : List String) (body : Node)
  | Var (identifier : String) (body : Node)
  | Drop (func : Node)
  | Pre (exprs : List Node) (statements : List Node)
  | Block (statements : List Node) (expr : Node)
  | Map (expr : Node) (cases : List (Node × Node)) (default_case : Option Node)
  | FnInvoke (identifier : String) (arguments : List Node)
  | Codeify (expr : Node)
  | Concat (lhs rhs : Node)

/-- `lex.peek()`: at the end of input the lexer keeps returning EOF. -/
def peek : List Tok → Tok
  | [] => .tEof
  | t :: _ => t

/-- `lex.advance()`: consume one token. -/
def adv : List Tok → List Tok
  | [] => []
  | _ :: ts => ts

/-- `Token::str()`: the source text of a token, as used by the parser for
identifier names and error messages. -/
def tokStr : Tok → String
  | .tLet => "let"
  | .tVar => "var"
  | .tDrop => "drop"
  | .tPre => "prefix"
  | .tMap => "map"
  | .tStar => "*"
  | .tEqual => "="
  | .tCat => ".."
  | .tLParen => "("
  | .tRParen => ")"
  | .tLBrace => "\x7b"
  | .tRBrace => "\x7d"
  | .tComma => ","
  | .tArrow => "->"
  | .tIdent s => s
  | .tStr s => s
  | .tEof => ""

/-- Modelled from the spec: `peek_is_call` (declared in headers not under
src/); grammar rule `fninvoke := ident …`, so a call starts at an
identifier. -/
def peek_is_call : Tok → Bool
  | .tIdent _ => true
  | _ => false

/-- Modelled from the spec: `peek_is_string`; a string expression starts at
one of the string-opening tokens, here carried as a single `tStr`. -/
def peek_is_string : Tok → Bool
  | .tStr _ => true
  | _ => false

/-- Modelled from the spec: `peek_is_expr`; grammar rule
`primary := fninvoke | string | block | map | codeify`. -/
def peek_is_expr (t : Tok) : Bool :=
  peek_is_call t || peek_is_string t ||
    match t with
    | .tLBrace | .tMap | .tEqual => true
    | _ => false

/-- Modelled from the spec: `peek_is_stmt`; a statement is a `let`, `var`,
`drop` or `prefix` form, or an expression. -/
def peek_is_stmt (t : Tok) : Bool :=
  (match t with
   | .tLet | .tVar | .tDrop | .tPre => true
   | _ => false) || peek_is_expr t

/-- Modelled from the spec: `peek_is_reserved_name`; the reserved keywords of
the grammar. -/
def peek_is_reserved_name : Tok → Bool
  | .tLet | .tVar | .tDrop | .tPre | .tMap => true
  | _ => false

/-- `string` (parser.cpp lines 429-453): a decoded literal arrives as one
`tStr` token; with any other lookahead the node keeps its empty literal and
nothing is consumed (the C++ if-chain falls through). -/
def string : Nat → List Tok → Except String (Node × List Tok)
  | 0, _ => .error "recursion fuel exhausted"
  | _ + 1, ts =>
    match peek ts with
    | Tok.tStr s => .ok (Node.String s, adv ts)
    | _ => .ok (Node.String "", ts)

/-- The parameter-collecting while loop of `let` (parser.cpp lines
101-116): collect identifiers; a comma is skipped, a `)` re-enters the
loop test, anything else is an error. -/
def paramLoop : List Tok → List String → Except String (List String × List Tok)
  | Tok.tIdent id :: ts1, acc =>
    match ts1 with
    | Tok.tComma :: ts2 => paramLoop ts2 (acc ++ [id])
    | Tok.tRParen :: rest =>
      -- the C++ re-enters the loop test, which exits at once on `)`
      .ok (acc ++ [id], Tok.tRParen :: rest)
    | _ => .error "expecting comma to follow parameter name."
  | ts, acc => .ok (acc, ts)

mutual

/-- `expression` (parser.cpp lines 660-702): parse a primary, then on `..`
build a `Concat` whose right-hand side comes from a single recursive call
into `expression`. -/
def expression : Nat → List Tok → Except String (Node × List Tok)
  | 0, _ => .error "recursion fuel exhausted"
  | f + 1, ts =>
    match primaryE f ts with
    | .error e => .error e
    | .ok (lhs, ts1) =>
      if peek ts1 = Tok.tCat then
        match expression f (adv ts1) with
        | .error e => .error e
        | .ok (rhs, ts2) => .ok (Node.Concat lhs rhs, ts2)
      else .ok (lhs, ts1)

/-- The lookahead dispatch at the head of `expression` (parser.cpp lines
668-686). -/
def primaryE : Nat → List Tok → Except String (Node × List Tok)
  | 0, _ => .error "recursion fuel exhausted"
  | f + 1, ts =>
    if peek_is_call (peek ts) then fninvoke f ts
    else if peek_is_string (peek ts) then string f ts
    else if peek ts = Tok.tLBrace then block f ts
    else if peek ts = Tok.tMap then map f ts
    else if peek ts = Tok.tEqual then codeify f ts
    else .error "expecting an expression."

/-- `fninvoke` (parser.cpp lines 457-499); the intrinsic rewrite is not
modelled (no intrinsic tokens), so the `else` branch setting the
identifier is always taken. -/
def fninvoke : Nat → List Tok → Except String (Node × List Tok)
  | 0, _ => .error "recursion fuel exhausted"
  | f + 1, ts =>
    let fn_token := peek ts
    let ts1 := adv ts
    if peek ts1 = Tok.tLParen then
      match fnargs f (adv ts1) [] with
      | .error e => .error e
      | .ok (args, ts2) =>
        if peek ts2 = Tok.tRParen then .ok (Node.FnInvoke (tokStr fn_token) args, adv ts2)
        else .error "expecting \x27)\x27 to follow argument list."
    else .ok (Node.FnInvoke (tokStr fn_token) [], ts1)

/-- The argument-collecting while loop of `fninvoke` (parser.cpp lines
466-479). -/
def fnargs : Nat → List Tok → List Node → Except String (List Node × List Tok)
  | 0, _, _ => .error "recursion fuel exhausted"
  | f + 1, ts, acc =>
    if peek_is_expr (peek ts) then
      match expression f ts with
      | .error e => .error e
      | .ok (e, ts1) =>
        if peek ts1 = Tok.tComma then fnargs f (adv ts1) (acc ++ [e])
        else if peek ts1 = Tok.tRParen then fnargs f ts1 (acc ++ [e])
        else .error "expecting comma to follow parameter name."
    else .ok (acc, ts)

/-- `let` (parser.cpp lines 76-136); named `letStmt` because `let` is a Lean
keyword.  After the parameter loop stops, a reserved name at the lookahead
is reported as a keyword conflict. -/
def letStmt : Nat → List Tok → Except String (Node × List Tok)
  | 0, _ => .error "recursion fuel exhausted"
  | f + 1, ts =>
    let ts1 := adv ts
    match peek ts1 with
    | Tok.tIdent id =>
      let ts2 := adv ts1
      match (if peek ts2 = Tok.tLParen then
               match paramLoop (adv ts2) [] with
               | .error e => .error e
               | .ok (ps, ts3) =>
                 if peek_is_reserved_name (peek ts3) then
                   .error ("parameter name \x27" ++ tokStr (peek ts3) ++ "\x27 conflicts with keyword.")
                 else if peek ts3 = Tok.tRParen then .ok (ps, adv ts3)
                 else .error "expecting \x27)\x27 to follow argument list."
             else .ok ([], ts2) : Except String (List String × List Tok)) with
      | .error e => .error e
      | .ok (ps, ts4) =>
        match expression f ts4 with
        | .error e => .error e
        | .ok (body, ts5) => .ok (Node.Fn id ps body, ts5)
    | _ => .error "function declaration does not have a name."

/-- `var` (parser.cpp lines 139-160). -/
def varStmt : Nat → List Tok → Except String (Node × List Tok)
  | 0, _ => .error "recursion fuel exhausted"
  | f + 1, ts =>
    let ts1 := adv ts
    match peek ts1 with
    | Tok.tIdent id =>
      match expression f (adv ts1) with
      | .error e => .error e
      | .ok (body, ts2) => .ok (Node.Var id body, ts2)
    | _ => .error "variable declaration does not have a name."

/-- `drop` (parser.cpp lines 178-187). -/
def dropStmt : Nat → List Tok → Except String (Node × List Tok)
  | 0, _ => .error "recursion fuel exhausted"
  | f + 1, ts =>
    match fninvoke f (adv ts) with
    | .error e => .error e
    | .ok (call, ts1) => .ok (Node.Drop call, ts1)

/-- `codeify` (parser.cpp lines 163-175). -/
def codeify : Nat → List Tok → Except String (Node × List Tok)
  | 0, _ => .error "recursion fuel exhausted"
  | f + 1, ts =>
    let ts1 := adv ts
    if peek_is_expr (peek ts1) then
      match expression f ts1 with
      | .error e => .error e
      | .ok (e, ts2) => .ok (Node.Codeify e, ts2)
    else .error "expecting an expression to follow =."

/-- `prefix` (parser.cpp lines 502-548); named `preStmt` because `prefix` is
reserved in Lean. -/
def preStmt : Nat → List Tok → Except String (Node × List Tok)
  | 0, _ => .error "recursion fuel exhausted"
  | f + 1, ts =>
    let ts1 := adv ts
    if peek_is_expr (peek ts1) then
      match expression f ts1 with
      | .error e => .error e
      | .ok (e, ts2) =>
        if peek ts2 = Tok.tLBrace then
          match (if peek (adv ts2) = Tok.tRBrace then .ok ([], adv ts2)
                 else preLoop f (adv ts2) : Except String (List Node × List Tok)) with
          | .error er => .error er
          | .ok (ss, ts3) =>
            if peek ts3 = Tok.tRBrace then .ok (Node.Pre [e] ss, adv ts3)
            else .error "prefix is unterminated."
        else .error "expecting \x27\x7b\x27 to follow name."
    else .error "prefix does not have a name."

/-- The statement do-while loop of `prefix` (parser.cpp lines 534-537). -/
def preLoop : Nat → List Tok → Except String (List Node × List Tok)
  | 0, _ => .error "recursion fuel exhausted"
  | f + 1, ts =>
    match statement f ts with
    | .error e => .error e
    | .ok (st, ts1) =>
      if peek_is_stmt (peek ts1) then
        match preLoop f ts1 with
        | .error e => .error e
        | .ok (ss, ts2) => .ok (st :: ss, ts2)
      else .ok ([st], ts1)

/-- `block` (parser.cpp lines 552-596): skip `{`, consume statements while
the lookahead starts one, then pop the last statement into the trailing
expression slot — but only when the `last_is_expr` flag (set from the
lookahead that opened the final loop iteration) is true. -/
def block : Nat → List Tok → Except String (Node × List Tok)
  | 0, _ => .error "recursion fuel exhausted"
  | f + 1, ts0 =>
    let ts := adv ts0
    match (if peek_is_stmt (peek ts) then blockLoop f ts
           else .ok ([], false, ts) : Except String (List Node × Bool × List Tok)) with
    | .error e => .error e
    | .ok (ss, lastE, ts1) =>
      if !peek_is_expr (peek ts1) && lastE then
        let node := Node.Block ss.dropLast (ss.getLastD (Node.String ""))
        if peek ts1 = Tok.tArrow then .error "map is missing test expression."
        else if peek ts1 = Tok.tRBrace then .ok (node, adv ts1)
        else .error "block is unterminated."
      else .error "expecting a trailing expression at the end of a block"

/-- The statement do-while loop of `block` (parser.cpp lines 562-572),
also returning the final value of the `last_is_expr` flag. -/
def blockLoop : Nat → List Tok → Except String (List Node × Bool × List Tok)
  | 0, _ => .error "recursion fuel exhausted"
  | f + 1, ts =>
    let lastE := peek_is_expr (peek ts)
    match statement f ts with
    | .error e => .error e
    | .ok (st, ts1) =>
      if peek_is_stmt (peek ts1) then
        match blockLoop f ts1 with
        | .error e => .error e
        | .ok (ss, b, ts2) => .ok (st :: ss, b, ts2)
      else .ok ([st], lastE, ts1)

/-- `map` (parser.cpp lines 599-656). -/
def map : Nat → List Tok → Except String (Node × List Tok)
  | 0, _ => .error "recursion fuel exhausted"
  | f + 1, ts =>
    let ts1 := adv ts
    if peek_is_expr (peek ts1) then
      match expression f ts1 with
      | .error e => .error e
      | .ok (scrut, ts2) =>
        if peek ts2 = Tok.tLBrace then
          match mapArms f (adv ts2) [] with
          | .error e => .error e
          | .ok (cases, ts3) =>
            match (if peek ts3 = Tok.tStar then
                     (if peek (adv ts3) = Tok.tArrow then
                        (if peek_is_expr (peek (adv (adv ts3))) then
                           match expression f (adv (adv ts3)) with
                           | .error e => .error e
                           | .ok (d, ts4) => .ok (some d, ts4)
                         else .error "expected expression.")
                      else .error "expected \x27->\x27.")
                   else .ok (none, ts3) : Except String (Option Node × List Tok)) with
            | .error e => .error e
            | .ok (dflt, ts5) =>
              if peek ts5 = Tok.tRBrace then .ok (Node.Map scrut cases dflt, adv ts5)
              else .error "expected \x27\x7d\x27."
        else .error "expected \x27\x7b\x27."
    else .error "expected an expression to follow `map` keyword."

/-- The arm-collecting while loop of `map` (parser.cpp lines 618-630). -/
def mapArms : Nat → List Tok → List (Node × Node) →
    Except String (List (Node × Node) × List Tok)
  | 0, _, _ => .error "recursion fuel exhausted"
  | f + 1, ts, acc =>
    if peek_is_expr (peek ts) then
      match expression f ts with
      | .error e => .error e
      | .ok (arm, ts1) =>
        if peek ts1 = Tok.tArrow then
          if peek_is_expr (peek (adv ts1)) then
            match expression f (adv ts1) with
            | .error e => .error e
            | .ok (hand, ts2) => mapArms f ts2 (acc ++ [(arm, hand)])
          else .error "expected expression."
        else .error "expected \x27->\x27."
    else .ok (acc, ts)

/-- `statement` (parser.cpp lines 706-725). -/
def statement : Nat → List Tok → Except String (Node × List Tok)
  | 0, _ => .error "recursion fuel exhausted"
  | f + 1, ts =>
    match peek ts with
    | Tok.tLet => letStmt f ts
    | Tok.tVar => varStmt f ts
    | Tok.tDrop => dropStmt f ts
    | Tok.tPre => preStmt f ts
    | t => if peek_is_expr t then expression f ts else .error "expecting a statement."

end

/-! ## Helper lemmas: hex and binary decoding -/

theorem orLast_concat (l : List Nat) (x v : Nat) : orLast (l ++ [x]) v = l ++ [x ||| v] := by
  simp [orLast, List.dropLast_concat, List.getLastD_concat]

theorem hex_to_digit_lt (c : Char) : hex_to_digit c < 16 := by
  unfold hex_to_digit
  repeat' split
  all_goals omega

theorem hexAccum_pairs : ∀ (rs : List Char) (k : Nat) (acc : List Nat),
    '_' ∉ rs → hexAccum rs (2 * k) acc = acc ++ pairBytesRev rs
  | [], _, acc, _ => by simp [hexAccum, pairBytesRev]
  | [b], k, acc, h => by
    have hb : ¬(b = '_') := fun e => h (by simp [e])
    rw [hexAccum, if_neg hb, if_neg (by omega : ¬((2 * k) % 2 = 1))]
    simp [hexAccum, pairBytesRev]
  | b :: a :: rest, k, acc, h => by
    have hb : ¬(b = '_') := fun e => h (by simp [e])
    have ha : ¬(a = '_') := fun e => h (by simp [e])
    have hr : '_' ∉ rest := fun m => h (by simp [m])
    rw [hexAccum, if_neg hb, if_neg (by omega : ¬((2 * k) % 2 = 1))]
    rw [hexAccum, if_neg ha, if_pos (by omega : (2 * k + 1) % 2 = 1), orLast_concat]
    rw [(by omega : 2 * k + 1 + 1 = 2 * (k + 1)), hexAccum_pairs rest (k + 1) _ hr]
    simp [pairBytesRev]

theorem hexAccum_filter : ∀ (l : List Char) (c : Nat) (acc : List Nat),
    hexAccum l c acc = hexAccum (l.filter (· ≠ '_')) c acc
  | [], _, _ => rfl
  | x :: xs, c, acc => by
    by_cases hx : x = '_'
    · subst hx
      rw [hexAccum, if_pos rfl]
      rw [show ('_' :: xs).filter (· ≠ '_') = xs.filter (· ≠ '_') by simp]
      exact hexAccum_filter xs c acc
    · rw [show (x :: xs).filter (· ≠ '_') = x :: xs.filter (· ≠ '_') by simp [hx]]
      rw [hexAccum, if_neg hx]
      rw [hexAccum, if_neg hx]
      by_cases hp : c % 2 = 1
      · rw [if_pos hp, if_pos hp]
        exact hexAccum_filter xs _ _
      · rw [if_neg hp, if_neg hp]
        exact hexAccum_filter xs _ _

theorem hex_string_pairs (ds : List Char) (h : '_' ∉ ds) :
    hex_string ds = (pairBytesRev ds.reverse).reverse := by
  have h' : '_' ∉ ds.reverse := by simpa using h
  unfold hex_string
  rw [show (0 : Nat) = 2 * 0 from rfl, hexAccum_pairs ds.reverse 0 [] h']
  simp

theorem pairBytesRev_concat_even : ∀ (rs : List Char) (d : Char), rs.length % 2 = 0 →
    pairBytesRev (rs ++ [d]) = pairBytesRev rs ++ [hex_to_digit d]
  | [], d, _ => rfl
  | [b], _, h => by simp at h
  | b :: a :: rest, d, h => by
    rw [show (b :: a :: rest) ++ [d] = b :: a :: (rest ++ [d]) from rfl]
    rw [pairBytesRev, pairBytesRev]
    rw [pairBytesRev_concat_even rest d (by simp at h ⊢; omega)]
    simp

theorem pairBytesRev_length : ∀ rs : List Char, (pairBytesRev rs).length = (rs.length + 1) / 2
  | [] => rfl
  | [_] => by simp [pairBytesRev]
  | b :: a :: rest => by
    simp only [pairBytesRev, List.length_cons, pairBytesRev_length rest]
    omega

theorem binAccum_lastGroup : ∀ (ds : List Char) (j k : Nat) (acc : List Nat) (b : Nat),
    0 < j → j + ds.length ≤ 8 → '_' ∉ ds →
    binAccum ds (8 * k + j) (acc ++ [b]) = acc ++ [b ||| bitsVal j ds]
  | [], j, k, acc, b, _, _, _ => by simp [binAccum, bitsVal, Nat.or_zero]
  | c :: cs, j, k, acc, b, hj, hle, h => by
    have hc : ¬(c = '_') := fun e => h (by simp [e])
    have hcs : '_' ∉ cs := fun m => h (by simp [m])
    have hlt : j < 8 := by simp at hle; omega
    rw [binAccum, if_neg hc, if_pos (by omega : (8 * k + j) % 8 ≠ 0)]
    rw [(by omega : (8 * k + j) % 8 = j), orLast_concat]
    rw [(by omega : 8 * k + j + 1 = 8 * k + (j + 1))]
    rw [binAccum_lastGroup cs (j + 1) k acc _ (by omega) (by simp at hle ⊢; omega) hcs]
    simp [bitsVal, Nat.lor_assoc]

theorem binAccum_group : ∀ (ds rest : List Char) (j k : Nat) (acc : List Nat) (b : Nat),
    0 < j → j + ds.length = 8 → '_' ∉ ds →
    binAccum (ds ++ rest) (8 * k + j) (acc ++ [b]) =
      binAccum rest (8 * (k + 1)) (acc ++ [b ||| bitsVal j ds])
  | [], rest, j, k, acc, b, _, hj8, _ => by
    have : j = 8 := by simpa using hj8
    subst this
    rw [(by omega : 8 * k + 8 = 8 * (k + 1))]
    simp [bitsVal, Nat.or_zero]
  | c :: cs, rest, j, k, acc, b, hj, hj8, h => by
    have hc : ¬(c = '_') := fun e => h (by simp [e])
    have hcs : '_' ∉ cs := fun m => h (by simp [m])
    have hlt : j < 8 := by simp at hj8; omega
    rw [List.cons_append, binAccum, if_neg hc, if_pos (by omega : (8 * k + j) % 8 ≠ 0)]
    rw [(by omega : (8 * k + j) % 8 = j), orLast_concat]
    rw [(by omega : 8 * k + j + 1 = 8 * k + (j + 1))]
    rw [binAccum_group cs rest (j + 1) k acc _ (by omega) (by simp at hj8 ⊢; omega) hcs]
    simp [bitsVal, Nat.lor_assoc]

theorem binAccum_small (c : Char) (cs : List Char) (k : Nat) (acc : List Nat)
    (hlen : cs.length ≤ 7) (h : '_' ∉ c :: cs) :
    binAccum (c :: cs) (8 * k) acc = acc ++ [bitsVal 0 (c :: cs)] := by
  have hc : ¬(c = '_') := fun e => h (by simp [e])
  have hcs : '_' ∉ cs := fun m => h (by simp [m])
  rw [binAccum, if_neg hc, if_neg (by omega : ¬((8 * k) % 8 ≠ 0))]
  rw [(by omega : 8 * k + 1 = 8 * k + 1)]
  rw [binAccum_lastGroup cs 1 k acc _ (by omega) (by omega) hcs]
  simp [bitsVal, Nat.shiftLeft_zero]

theorem binAccum_groups : ∀ (rs : List Char) (k : Nat) (acc : List Nat),
    '_' ∉ rs → binAccum rs (8 * k) acc = acc ++ byteGroupsRev rs
  | [], _, acc, _ => by simp [binAccum, byteGroupsRev]
  | c0 :: c1 :: c2 :: c3 :: c4 :: c5 :: c6 :: c7 :: rest, k, acc, h => by
    have h0 : ¬(c0 = '_') := fun e => h (by simp [e])
    have h17 : '_' ∉ [c1, c2, c3, c4, c5, c6, c7] := fun m => h (by simp at m ⊢; tauto)
    have hrest : '_' ∉ rest := fun m => h (by simp [m])
    rw [binAccum, if_neg h0, if_neg (by omega : ¬((8 * k) % 8 ≠ 0))]
    rw [show (c1 :: c2 :: c3 :: c4 :: c5 :: c6 :: c7 :: rest)
        = [c1, c2, c3, c4, c5, c6, c7] ++ rest from rfl]
    rw [(by omega : 8 * k + 1 = 8 * k + 1)]
    rw [binAccum_group [c1, c2, c3, c4, c5, c6, c7] rest 1 k acc _ (by omega) (by simp) h17]
    rw [binAccum_groups rest (k + 1) _ hrest]
    simp [byteGroupsRev, bitsVal, Nat.shiftLeft_zero, Nat.lor_assoc]
  | [c0], k, acc, h => by
    rw [binAccum_small c0 [] k acc (by simp) h]; rfl
  | [c0, c1], k, acc, h => by
    rw [binAccum_small c0 [c1] k acc (by simp) h]; rfl
  | [c0, c1, c2], k, acc, h => by
    rw [binAccum_small c0 [c1, c2] k acc (by simp) h]; rfl
  | [c0, c1, c2, c3], k, acc, h => by
    rw [binAccum_small c0 [c1, c2, c3] k acc (by simp) h]; rfl
  | [c0, c1, c2, c3, c4], k, acc, h => by
    rw [binAccum_small c0 [c1, c2, c3, c4] k acc (by simp) h]; rfl
  | [c0, c1, c2, c3, c4, c5], k, acc, h => by
    rw [binAccum_small c0 [c1, c2, c3, c4, c5] k acc (by simp) h]; rfl
  | [c0, c1, c2, c3, c4, c5, c6], k, acc, h => by
    rw [binAccum_small c0 [c1, c2, c3, c4, c5, c6] k acc (by simp) h]; rfl

theorem binAccum_filter : ∀ (l : List Char) (c : Nat) (acc : List Nat),
    binAccum l c acc = binAccum (l.filter (· ≠ '_')) c acc
  | [], _, _ => rfl
  | x :: xs, c, acc => by
    by_cases hx : x = '_'
    · subst hx
      rw [binAccum, if_pos rfl]
      rw [show ('_' :: xs).filter (· ≠ '_') = xs.filter (· ≠ '_') by simp]
      exact binAccum_filter xs c acc
    · rw [show (x :: xs).filter (· ≠ '_') = x :: xs.filter (· ≠ '_') by simp [hx]]
      rw [binAccum, if_neg hx]
      rw [binAccum, if_neg hx]
      by_cases hp : c % 8 ≠ 0
      · rw [if_pos hp, if_pos hp]
        exact binAccum_filter xs _ _
      · rw [if_neg hp, if_neg hp]
        exact binAccum_filter xs _ _

theorem bin_string_groups (ds : List Char) (h : '_' ∉ ds) :
    bin_string ds = (byteGroupsRev ds.reverse).reverse := by
  have h' : '_' ∉ ds.reverse := by simpa using h
  unfold bin_string
  rw [show (0 : Nat) = 8 * 0 from rfl, binAccum_groups ds.reverse 0 [] h']
  simp

/-! ## Helper lemmas: smart-string consumption -/

theorem smartLoop_sound : ∀ (input p r : List Char) (q d : Char),
    smartLoop q d input = some (p, r) →
    input = p ++ q :: d :: r ∧ noPair q d (p ++ [q]) = true
  | [], p, r, q, d, h => by simp [smartLoop] at h
  | c :: cs, p, r, q, d, h => by
    by_cases hterm : c = q ∧ cs.head? = some d
    · obtain ⟨hcq, hhd⟩ := hterm
      subst hcq
      obtain ⟨cs', rfl⟩ : ∃ cs', cs = d :: cs' := by
        cases cs with
        | nil => simp at hhd
        | cons x xs => simp at hhd; exact ⟨xs, by rw [hhd]⟩
      rw [smartLoop, if_pos ⟨rfl, rfl⟩] at h
      simp only [Option.some.injEq, Prod.mk.injEq] at h
      obtain ⟨h1, h2⟩ := h
      subst h1
      subst h2
      exact ⟨rfl, rfl⟩
    · rw [smartLoop, if_neg hterm] at h
      cases hs : smartLoop q d cs with
      | none => rw [hs] at h; exact absurd h (by simp)
      | some pr =>
        obtain ⟨p', r'⟩ := pr
        rw [hs] at h
        simp only [Option.some.injEq, Prod.mk.injEq] at h
        obtain ⟨h1, h2⟩ := h
        subst h1
        subst h2
        obtain ⟨hin, hnp⟩ := smartLoop_sound cs p' r' q d hs
        subst hin
        refine ⟨rfl, ?_⟩
        cases p' with
        | nil =>
          simp only [List.cons_append, List.nil_append] at hterm ⊢
          rw [noPair, if_neg ?_]
          · rfl
          · rintro ⟨rfl, rfl⟩
            exact hterm ⟨rfl, rfl⟩
        | cons y p'' =>
          simp only [List.cons_append, List.nil_append] at hterm hnp ⊢
          rw [noPair, if_neg ?_]
          · exact hnp
          · rintro ⟨rfl, rfl⟩
            exact hterm ⟨rfl, rfl⟩

theorem smartLoop_complete : ∀ (p : List Char) (q d : Char) (r : List Char),
    noPair q d (p ++ [q]) = true → smartLoop q d (p ++ q :: d :: r) = some (p, r)
  | [], q, d, r, _ => by
    rw [List.nil_append, smartLoop, if_pos ⟨rfl, rfl⟩]
    rfl
  | x :: p', q, d, r, hnp => by
    have htail : noPair q d (p' ++ [q]) = true := by
      cases p' with
      | nil => rfl
      | cons y p'' =>
        simp only [List.cons_append] at hnp
        rw [noPair] at hnp
        by_cases hxy : x = q ∧ y = d
        · rw [if_pos hxy] at hnp
          exact absurd hnp (by simp)
        · rw [if_neg hxy] at hnp
          simpa using hnp
    have hcond : ¬(x = q ∧ (p' ++ q :: d :: r).head? = some d) := by
      cases p' with
      | nil =>
        simp only [List.cons_append, List.nil_append] at hnp ⊢
        rw [noPair] at hnp
        rintro ⟨rfl, hd⟩
        simp only [List.head?_cons, Option.some.injEq] at hd
        rw [if_pos ⟨rfl, hd.symm ▸ rfl⟩] at hnp
        exact absurd hnp (by simp)
      | cons y p'' =>
        simp only [List.cons_append] at hnp ⊢
        rw [noPair] at hnp
        rintro ⟨rfl, hd⟩
        simp only [List.head?_cons, Option.some.injEq] at hd
        rw [if_pos ⟨rfl, hd⟩] at hnp
        exact absurd hnp (by simp)
    rw [List.cons_append, smartLoop, if_neg hcond,
      smartLoop_complete p' q d r htail]

/-! ## Helper lemmas: paragraph strings -/

theorem collapseWsGo_head : ∀ (a : Char) (l : List Char), ∃ t, collapseWsGo a l = a :: t
  | _, [] => ⟨[], rfl⟩
  | a, b :: cs => by
    rw [collapseWsGo]
    by_cases h : (is_whitespace a && is_whitespace b) = true
    · rw [if_pos h]; exact collapseWsGo_head a cs
    · rw [if_neg h]; exact ⟨_, rfl⟩

theorem noAdjWs_cons (a : Char) (l : List Char) (h : noAdjWs (a :: l) = true) :
    noAdjWs l = true := by
  cases l with
  | nil => rfl
  | cons b t =>
    rw [noAdjWs] at h
    by_cases hab : is_whitespace a = true ∧ is_whitespace b = true
    · rw [if_pos hab] at h; exact absurd h (by simp)
    · rwa [if_neg hab] at h

theorem noAdjWs_collapseWsGo : ∀ (a : Char) (l : List Char),
    noAdjWs (collapseWsGo a l) = true
  | _, [] => rfl
  | a, b :: cs => by
    rw [collapseWsGo]
    by_cases h : (is_whitespace a && is_whitespace b) = true
    · rw [if_pos h]; exact noAdjWs_collapseWsGo a cs
    · rw [if_neg h]
      obtain ⟨t, ht⟩ := collapseWsGo_head b cs
      rw [ht, noAdjWs, if_neg ?_]
      · rw [← ht]; exact noAdjWs_collapseWsGo b cs
      · intro hb; exact h (by simp [hb.1, hb.2])

theorem noAdjWs_collapseWs (s : List Char) : noAdjWs (collapseWs s) = true := by
  cases s with
  | nil => rfl
  | cons a l => exact noAdjWs_collapseWsGo a l

theorem collapseWsGo_id : ∀ (a : Char) (l : List Char), noAdjWs (a :: l) = true →
    collapseWsGo a l = a :: l
  | _, [], _ => rfl
  | a, b :: cs, h => by
    rw [noAdjWs] at h
    by_cases hab : is_whitespace a = true ∧ is_whitespace b = true
    · rw [if_pos hab] at h; exact absurd h (by simp)
    · rw [if_neg hab] at h
      rw [collapseWsGo, if_neg (fun hb => hab (by simpa using hb)), collapseWsGo_id b cs h]

theorem collapseWs_id (s : List Char) (h : noAdjWs s = true) : collapseWs s = s := by
  cases s with
  | nil => rfl
  | cons a l => exact collapseWsGo_id a l h

theorem is_whitespace_wsToSpace (c : Char) : is_whitespace (wsToSpace c) = is_whitespace c := by
  unfold wsToSpace
  by_cases h : is_whitespace c = true
  · rw [if_pos h, h]; rfl
  · rw [if_neg h]

theorem noAdjWs_map_wsToSpace : ∀ (s : List Char), noAdjWs s = true →
    noAdjWs (s.map wsToSpace) = true
  | [], _ => rfl
  | [c], _ => rfl
  | a :: b :: t, h => by
    rw [noAdjWs] at h
    by_cases hab : is_whitespace a = true ∧ is_whitespace b = true
    · rw [if_pos hab] at h; exact absurd h (by simp)
    · rw [if_neg hab] at h
      rw [List.map_cons, List.map_cons, noAdjWs,
        if_neg (by simpa [is_whitespace_wsToSpace] using hab)]
      rw [← List.map_cons]
      exact noAdjWs_map_wsToSpace (b :: t) h

theorem allWsSpace_map (s : List Char) : allWsSpace (s.map wsToSpace) = true := by
  rw [allWsSpace, List.all_eq_true]
  intro x hx
  obtain ⟨c, -, rfl⟩ := List.mem_map.mp hx
  unfold wsToSpace
  by_cases h : is_whitespace c = true
  · simp [h]
  · simp [h]

theorem map_wsToSpace_id : ∀ (s : List Char), allWsSpace s = true → s.map wsToSpace = s
  | [], _ => rfl
  | c :: cs, h => by
    rw [allWsSpace, List.all_cons] at h
    obtain ⟨hc, hcs⟩ := by simpa using h
    rw [List.map_cons, map_wsToSpace_id cs (by simpa [allWsSpace] using hcs)]
    congr 1
    unfold wsToSpace
    by_cases hw : is_whitespace c = true
    · rw [if_pos hw]
      rcases hc with hc | hc
      · rw [hw] at hc; exact absurd hc (by simp)
      · rw [hc]
    · rw [if_neg hw]

theorem allWsSpace_sublist {s t : List Char} (hsub : t.Sublist s)
    (h : allWsSpace s = true) : allWsSpace t = true := by
  rw [allWsSpace, List.all_eq_true] at h ⊢
  intro x hx
  exact h x (hsub.subset hx)

theorem noAdjWs_dropLast : ∀ (s : List Char), noAdjWs s = true →
    noAdjWs s.dropLast = true
  | [], _ => rfl
  | [_], _ => rfl
  | a :: b :: t, h => by
    cases t with
    | nil => rfl
    | cons c t' =>
      rw [noAdjWs] at h
      by_cases hab : is_whitespace a = true ∧ is_whitespace b = true
      · rw [if_pos hab] at h; exact absurd h (by simp)
      · rw [if_neg hab] at h
        rw [List.dropLast_cons₂, List.dropLast_cons₂, noAdjWs, if_neg hab,
          ← List.dropLast_cons₂]
        exact noAdjWs_dropLast (b :: c :: t') h

theorem noAdjWs_head (c : Char) (cs : List Char) (hna : noAdjWs (c :: cs) = true)
    (hc : is_whitespace c = true) :
    ∀ x, cs.head? = some x → is_whitespace x = false := by
  cases cs with
  | nil => intro x hx; simp at hx
  | cons b t =>
    intro x hx
    simp only [List.head?_cons, Option.some.injEq] at hx
    rw [noAdjWs] at hna
    by_cases hab : is_whitespace c = true ∧ is_whitespace b = true
    · rw [if_pos hab] at hna; exact absurd hna (by simp)
    · rw [← hx]
      cases hxw : is_whitespace b
      · rfl
      · exact absurd ⟨hc, hxw⟩ hab

theorem noAdjWs_last_two : ∀ (s : List Char), noAdjWs s = true →
    ∀ b c, s.getLast? = some b → s.dropLast.getLast? = some c →
    ¬(is_whitespace c = true ∧ is_whitespace b = true)
  | [], _, b, c, h1, _ => by simp at h1
  | [x], _, b, c, _, h2 => by simp at h2
  | x :: y :: t, h, b, c, h1, h2 => by
    cases t with
    | nil =>
      simp only [List.getLast?_cons_cons, List.getLast?_singleton,
        Option.some.injEq] at h1
      simp only [List.dropLast_cons₂, List.dropLast_single,
        List.getLast?_singleton, Option.some.injEq] at h2
      rw [noAdjWs] at h
      by_cases hab : is_whitespace x = true ∧ is_whitespace y = true
      · rw [if_pos hab] at h; exact absurd h (by simp)
      · rw [← h1, ← h2]; exact hab
    | cons z t' =>
      have h' := noAdjWs_cons x (y :: z :: t') h
      rw [List.getLast?_cons_cons] at h1
      rw [List.dropLast_cons₂, List.dropLast_cons₂, List.getLast?_cons_cons] at h2
      exact noAdjWs_last_two (y :: z :: t') h' b c h1
        (by rw [List.dropLast_cons₂]; exact h2)

theorem para_strip_props (s2 y : List Char) (hna : noAdjWs s2 = true)
    (hws : allWsSpace s2 = true)
    (hhead : ∀ c, s2.head? = some c → is_whitespace c = false)
    (b : Char) (hg : s2.getLast? = some b)
    (hy : y = if is_whitespace b then s2.dropLast else s2) :
    y ≠ [] ∧ noAdjWs y = true ∧ allWsSpace y = true
    ∧ (∀ c, y.head? = some c → is_whitespace c = false)
    ∧ (∀ c, y.getLast? = some c → is_whitespace c = false) := by
  have hs2ne : s2 ≠ [] := by intro e; rw [e] at hg; simp at hg
  by_cases hb : is_whitespace b = true
  · rw [if_pos hb] at hy
    subst hy
    obtain ⟨x, x', t, rfl⟩ : ∃ x x' t, s2 = x :: x' :: t := by
      cases s2 with
      | nil => exact absurd rfl hs2ne
      | cons x l =>
        cases l with
        | nil =>
          have h1 : is_whitespace x = false := hhead x rfl
          have h2 : x = b := by simpa using hg
          rw [← h2] at hb
          rw [hb] at h1
          exact absurd h1 (by simp)
        | cons x' t => exact ⟨x, x', t, rfl⟩
    refine ⟨?_, noAdjWs_dropLast _ hna,
      allWsSpace_sublist (List.dropLast_sublist _) hws, ?_, ?_⟩
    · simp [List.dropLast_cons₂]
    · intro c hc
      rw [List.dropLast_cons₂] at hc
      simp only [List.head?_cons, Option.some.injEq] at hc
      rw [← hc]
      exact hhead x rfl
    · intro c hc
      have hlast := noAdjWs_last_two _ hna b c hg hc
      cases hcw : is_whitespace c
      · rfl
      · exact absurd ⟨hcw, hb⟩ hlast
  · rw [if_neg hb] at hy
    subst hy
    refine ⟨hs2ne, hna, hws, hhead, ?_⟩
    intro c hc
    have hbc : b = c := by rw [hg] at hc; simpa using hc
    rw [← hbc]
    cases hbw : is_whitespace b
    · rfl
    · exact absurd hbw hb

theorem para_some_props (s y : List Char) (h : para_string s = some y) :
    y ≠ [] ∧ noAdjWs y = true ∧ allWsSpace y = true
    ∧ (∀ c, y.head? = some c → is_whitespace c = false)
    ∧ (∀ c, y.getLast? = some c → is_whitespace c = false) := by
  have hna1 : noAdjWs ((collapseWs s).map wsToSpace) = true :=
    noAdjWs_map_wsToSpace _ (noAdjWs_collapseWs s)
  have hws1 : allWsSpace ((collapseWs s).map wsToSpace) = true := allWsSpace_map _
  simp only [para_string] at h
  cases hm : (collapseWs s).map wsToSpace with
  | nil => simp only [hm] at h; exact Option.noConfusion h
  | cons c cs =>
    simp only [hm] at h
    rw [hm] at hna1 hws1
    by_cases hc : is_whitespace c = true
    · rw [if_pos hc] at h
      cases hg : cs.getLast? with
      | none => simp only [hg] at h; exact Option.noConfusion h
      | some b =>
        simp only [hg, Option.some.injEq] at h
        exact para_strip_props cs y (noAdjWs_cons c cs hna1)
          (allWsSpace_sublist (List.sublist_cons_self c cs) hws1)
          (noAdjWs_head c cs hna1 hc) b hg h.symm
    · rw [if_neg hc] at h
      cases hg : (c :: cs).getLast? with
      | none => rw [List.getLast?_eq_none_iff] at hg; simp at hg
      | some b =>
        simp only [hg, Option.some.injEq] at h
        refine para_strip_props (c :: cs) y hna1 hws1 ?_ b hg h.symm
        intro c₀ h₀
        simp only [List.head?_cons, Option.some.injEq] at h₀
        rw [← h₀]
        cases hcv : is_whitespace c
        · rfl
        · exact absurd hcv hc

theorem para_fixed (y : List Char) (hne : y ≠ []) (hna : noAdjWs y = true)
    (hws : allWsSpace y = true)
    (hh : ∀ c, y.head? = some c → is_whitespace c = false)
    (hl : ∀ c, y.getLast? = some c → is_whitespace c = false) :
    para_string y = some y := by
  have h1 : (collapseWs y).map wsToSpace = y := by
    rw [collapseWs_id y hna, map_wsToSpace_id y hws]
  simp only [para_string, h1]
  cases y with
  | nil => exact absurd rfl hne
  | cons c cs =>
    have hc : is_whitespace c = false := hh c rfl
    simp only [hc]
    cases hg : (c :: cs).getLast? with
    | none => rw [List.getLast?_eq_none_iff] at hg; simp at hg
    | some b =>
      have hb : is_whitespace b = false := hl b hg
      simp [hg, hb]

theorem collapseWsGo_eq : ∀ (a : Char) (l : List Char),
    collapseWsGo a l
      = a :: collapseWs (if is_whitespace a = true then l.dropWhile is_whitespace else l)
  | a, [] => by
    by_cases ha : is_whitespace a = true
    · rw [if_pos ha]; rfl
    · rw [if_neg ha]; rfl
  | a, b :: cs => by
    rw [collapseWsGo]
    by_cases hab : (is_whitespace a && is_whitespace b) = true
    · obtain ⟨ha, hb⟩ : is_whitespace a = true ∧ is_whitespace b = true := by simpa using hab
      rw [if_pos hab, collapseWsGo_eq a cs, if_pos ha, if_pos ha,
        List.dropWhile_cons, if_pos hb]
    · rw [if_neg hab]
      by_cases ha : is_whitespace a = true
      · have hb : ¬(is_whitespace b = true) := fun hb => hab (by simp [ha, hb])
        rw [if_pos ha, List.dropWhile_cons, if_neg hb]
        rfl
      · rw [if_neg ha]
        rfl

theorem collapse_spec_eq : ∀ (s : List Char), collapseWs s = collapseRunsSpec s
  | [] => by simp [collapseWs, collapseRunsSpec]
  | a :: l => by
    rw [show collapseWs (a :: l) = collapseWsGo a l from rfl, collapseWsGo_eq a l,
      collapseRunsSpec]
    by_cases ha : is_whitespace a = true
    · rw [if_pos ha, if_pos ha, collapse_spec_eq (l.dropWhile is_whitespace)]
    · rw [if_neg ha, if_neg ha, collapse_spec_eq l]
  termination_by s => s.length
  decreasing_by
  · simp only [List.length_cons]
    exact Nat.lt_succ_of_le (List.dropWhile_sublist _).length_le
  · simp only [List.length_cons]
    exact Nat.lt_succ_self _

theorem para_some_eq (s y : List Char) (h : para_string s = some y) :
    y = stripOneTrailing (stripOneLeading ((collapseWs s).map wsToSpace)) := by
  simp only [para_string] at h
  cases hm : (collapseWs s).map wsToSpace with
  | nil => simp only [hm] at h; exact Option.noConfusion h
  | cons c cs =>
    simp only [hm] at h
    rw [stripOneLeading]
    by_cases hc : is_whitespace c = true
    · rw [if_pos hc] at h ⊢
      cases hg : cs.getLast? with
      | none => simp only [hg] at h; exact Option.noConfusion h
      | some b =>
        simp only [hg, Option.some.injEq] at h
        simp only [stripOneTrailing, hg]
        by_cases hb : is_whitespace b = true
        · rw [if_pos hb] at h ⊢; exact h.symm
        · rw [if_neg hb] at h ⊢; exact h.symm
    · rw [if_neg hc] at h ⊢
      cases hg : (c :: cs).getLast? with
      | none => rw [List.getLast?_eq_none_iff] at hg; simp at hg
      | some b =>
        simp only [hg, Option.some.injEq] at h
        simp only [stripOneTrailing, hg]
        by_cases hb : is_whitespace b = true
        · rw [if_pos hb] at h ⊢; exact h.symm
        · rw [if_neg hb] at h ⊢; exact h.symm

theorem collapseWsGo_allWs : ∀ (a : Char) (l : List Char), is_whitespace a = true →
    (∀ x ∈ l, is_whitespace x = true) → collapseWsGo a l = [a]
  | _, [], _, _ => rfl
  | a, b :: cs, ha, hl => by
    rw [collapseWsGo, if_pos (by simp [ha, hl b (by simp)]),
      collapseWsGo_allWs a cs ha (fun x hx => hl x (by simp [hx]))]

theorem mem_collapseWsGo : ∀ (a : Char) (l : List Char) (c : Char),
    is_whitespace c = false → c ∈ a :: l → c ∈ collapseWsGo a l
  | _, [], c, _, hm => by rw [collapseWsGo]; simpa using hm
  | a, b :: cs, c, hcw, hm => by
    rw [collapseWsGo]
    by_cases h : (is_whitespace a && is_whitespace b) = true
    · rw [if_pos h]
      have hb : is_whitespace b = true := (by simpa using h : _ ∧ _).2
      apply mem_collapseWsGo a cs c hcw
      rcases List.mem_cons.mp hm with rfl | hm2
      · exact List.mem_cons_self ..
      · rcases List.mem_cons.mp hm2 with rfl | hm3
        · rw [hb] at hcw; simp at hcw
        · exact List.mem_cons_of_mem a hm3
    · rw [if_neg h]
      rcases List.mem_cons.mp hm with rfl | hm2
      · exact List.mem_cons_self ..
      · exact List.mem_cons_of_mem a (mem_collapseWsGo b cs c hcw hm2)

/-! ## Helper lemmas: the parser -/

/-- The statement list produced by the block do-while loop is non-empty, its
returned flag is the `peek_is_expr` lookahead that opened the final
iteration, the final statement's parse ends exactly at the loop's end, and
the loop stops only when the lookahead no longer starts a statement. -/
theorem blockLoop_last : ∀ (f : Nat) (ts : List Tok) (ss : List Node) (b : Bool)
    (ts2 : List Tok), blockLoop f ts = .ok (ss, b, ts2) →
    ∃ pre st f' tsL, ss = pre ++ [st] ∧ b = peek_is_expr (peek tsL)
      ∧ statement f' tsL = .ok (st, ts2) ∧ peek_is_stmt (peek ts2) = false := by
  intro f
  induction f with
  | zero => intro ts ss b ts2 h; exact absurd h (by simp [blockLoop])
  | succ f ih =>
    intro ts ss b ts2 h
    simp only [blockLoop] at h
    cases hst : statement f ts with
    | error e => simp only [hst] at h; exact Except.noConfusion h
    | ok stts =>
      obtain ⟨st, ts1⟩ := stts
      simp only [hst] at h
      by_cases hpk : peek_is_stmt (peek ts1) = true
      · rw [if_pos hpk] at h
        cases hbl : blockLoop f ts1 with
        | error e => simp only [hbl] at h; exact Except.noConfusion h
        | ok sbt =>
          obtain ⟨ss', b', ts2'⟩ := sbt
          simp only [hbl] at h
          simp only [Except.ok.injEq, Prod.mk.injEq] at h
          obtain ⟨h1, h2, h3⟩ := h
          obtain ⟨pre, st', f', tsL, hss, hb, hstm, hend⟩ := ih ts1 ss' b' ts2' hbl
          refine ⟨st :: pre, st', f', tsL, ?_, ?_, ?_, ?_⟩
          · rw [← h1, hss]; rfl
          · rw [← h2]; exact hb
          · rw [h3] at hstm; exact hstm
          · rw [h3] at hend; exact hend
      · rw [if_neg hpk] at h
        simp only [Except.ok.injEq, Prod.mk.injEq] at h
        obtain ⟨h1, h2, h3⟩ := h
        refine ⟨[], st, f, ts, by rw [← h1]; rfl, h2.symm, ?_, ?_⟩
        · rw [hst, h3]
        · rw [← h3]
          cases hx : peek_is_stmt (peek ts1)
          · rfl
          · exact absurd hx hpk

/-- The parameter loop of `let` consumes identifier-comma pairs and stops at
the first token that is not an identifier. -/
theorem paramLoop_keywords : ∀ (ids : List String) (acc : List String) (kw : Tok)
    (rest : List Tok), (∀ s, kw ≠ Tok.tIdent s) →
    paramLoop (ids.flatMap (fun i => [Tok.tIdent i, Tok.tComma]) ++ kw :: rest) acc
      = .ok (acc ++ ids, kw :: rest)
  | [], acc, kw, rest, hkw => by
    rw [List.flatMap_nil, List.nil_append]
    cases kw with
    | tIdent s => exact absurd rfl (hkw s)
    | tLet => simp [paramLoop]
    | tVar => simp [paramLoop]
    | tDrop => simp [paramLoop]
    | tPre => simp [paramLoop]
    | tMap => simp [paramLoop]
    | tStar => simp [paramLoop]
    | tEqual => simp [paramLoop]
    | tCat => simp [paramLoop]
    | tLParen => simp [paramLoop]
    | tRParen => simp [paramLoop]
    | tLBrace => simp [paramLoop]
    | tRBrace => simp [paramLoop]
    | tComma => simp [paramLoop]
    | tArrow => simp [paramLoop]
    | tStr s => simp [paramLoop]
    | tEof => simp [paramLoop]
  | i :: ids, acc, kw, rest, hkw => by
    rw [List.flatMap_cons]
    rw [show ([Tok.tIdent i, Tok.tComma]
        ++ ids.flatMap (fun i => [Tok.tIdent i, Tok.tComma])) ++ kw :: rest
      = Tok.tIdent i :: Tok.tComma
        :: (ids.flatMap (fun i => [Tok.tIdent i, Tok.tComma]) ++ kw :: rest) from rfl]
    rw [paramLoop]
    rw [paramLoop_keywords ids (acc ++ [i]) kw rest hkw]
    simp

/-! ## Claim theorems -/

/-- C1, counterexample: the parser uses only the FIRST byte of the user
delimiter.  With delimiter "ab" the input below contains no quote followed
by "ab" at all — by the claim the string could not terminate — yet the
loop terminates at the quote followed by 'a' alone and leaves the 'c'
unconsumed. -/
theorem smart_string_multibyte_delim_cex :
    smart_string_consume ['r', 'a', 'b'] '\x22' ['x', '\x22', 'a', 'c'] = some (['x'], ['c'])
    ∧ ¬ List.IsInfix ['\x22', 'a', 'b'] ['x', '\x22', 'a', 'c'] := by
  constructor
  · rfl
  · decide

/-- C1, amended: for a smart string whose token view carries the type letter
and then delimiter bytes `d :: ds`, consumption succeeds with payload `p`
and remaining input `rest` exactly when the input is `p`, the quote, the
FIRST delimiter byte `d`, then `rest`, and no quote inside the consumed
part (`p` plus the terminating quote) is immediately followed by `d`; the
terminating quote and that one delimiter byte are consumed but excluded
from the payload, and any quote not followed by `d` stays literal
content. -/
theorem smart_string_first_delim_byte (t d : Char) (ds : List Char) (q : Char)
    (input p rest : List Char) :
    smart_string_consume (t :: d :: ds) q input = some (p, rest) ↔
      (input = p ++ q :: d :: rest ∧ noPair q d (p ++ [q]) = true) := by
  constructor
  · exact fun h => smartLoop_sound input p rest q d h
  · rintro ⟨rfl, hnp⟩
    exact smartLoop_complete p q d rest hnp

theorem smart_string_first_delim_byte_witness :
    smart_string_consume ['r', '#'] '\x22' ['a', '\x22', '#', 'r', 'e'] = some (['a'], ['r', 'e']) :=
  (smart_string_first_delim_byte 'r' '#' [] '\x22' ['a', '\x22', '#', 'r', 'e'] ['a'] ['r', 'e']).mpr
    (by decide)

/-- C2: `code_string` trims trailing whitespace, trims the leading
newline-terminated whitespace, computes the minimum indentation after the
newlines and strips that common indent; in particular the claim's own
example decodes as stated, and a second example shows the minimum being
taken over lines of different indentation. -/
theorem code_string_dedent_examples :
    code_string "   int x = 1;\n   int y = 2;\n".toList = "int x = 1;\nint y = 2;".toList
    ∧ code_string "\n  a\n    b\n".toList = "a\nb".toList := by
  constructor
  · decide
  · decide

/-- C3: a block succeeds exactly when the statement loop ran and its last
statement opened at an expression token: (1) a block whose body starts
with no statement (e.g. `{}`) raises the trailing-expression parse error;
(2) so does a block whose loop finished with `last_is_expr = false` (a
final `let`/`var`/`drop`/`prefix` statement); (3) when the loop's last
statement was an expression and `}` follows, the block succeeds and that
last statement is popped off the statement list into the trailing
expression slot; (4) conversely every successful block parse arises this
way, its trailing expression being the parse of a final statement that
began at an expression token. -/
theorem block_trailing_expression :
    (∀ (f : Nat) (ts : List Tok), peek_is_stmt (peek ts) = false →
      block (f + 1) (Tok.tLBrace :: ts)
        = .error "expecting a trailing expression at the end of a block")
    ∧ (∀ (f : Nat) (ts : List Tok) (ss : List Node) (ts2 : List Tok),
        peek_is_stmt (peek ts) = true → blockLoop f ts = .ok (ss, false, ts2) →
        block (f + 1) (Tok.tLBrace :: ts)
          = .error "expecting a trailing expression at the end of a block")
    ∧ (∀ (f : Nat) (ts : List Tok) (ss : List Node) (e : Node) (ts2 : List Tok),
        peek_is_stmt (peek ts) = true → blockLoop f ts = .ok (ss ++ [e], true, ts2) →
        peek ts2 = Tok.tRBrace →
        block (f + 1) (Tok.tLBrace :: ts) = .ok (Node.Block ss e, adv ts2))
    ∧ (∀ (f : Nat) (ts : List Tok) (n : Node) (rest : List Tok),
        block f ts = .ok (n, rest) →
        ∃ ss e, n = Node.Block ss e
          ∧ (∃ f1 ts2, blockLoop f1 (adv ts) = .ok (ss ++ [e], true, ts2))
          ∧ (∃ f' tsL ts2, peek_is_expr (peek tsL) = true
              ∧ statement f' tsL = .ok (e, ts2))) := by
  refine ⟨?_, ?_, ?_, ?_⟩
  · intro f ts h
    simp [block, adv, h]
  · intro f ts ss ts2 hpk hbl
    simp [block, adv, hpk, hbl]
  · intro f ts ss e ts2 hpk hbl hrb
    simp [block, adv, hpk, hbl, hrb, peek_is_expr, peek_is_call, peek_is_string,
      List.dropLast_concat, List.getLastD_concat]
  · intro f ts n rest h
    cases f with
    | zero => exact absurd h (by simp [block])
    | succ f =>
      simp only [block] at h
      cases hpk : peek_is_stmt (peek (adv ts)) with
      | false =>
        simp only [hpk] at h
        simp at h
      | true =>
        simp only [hpk, if_true] at h
        cases hbl : blockLoop f (adv ts) with
        | error e => simp only [hbl] at h; exact Except.noConfusion h
        | ok sbt =>
          obtain ⟨ss0, lastE, ts1⟩ := sbt
          simp only [hbl] at h
          cases hcond : (!peek_is_expr (peek ts1) && lastE) with
          | false => simp only [hcond] at h; simp at h
          | true =>
            simp only [hcond] at h
            simp only [if_true] at h
            by_cases harr : peek ts1 = Tok.tArrow
            · rw [if_pos harr] at h; exact Except.noConfusion h
            · rw [if_neg harr] at h
              by_cases hrb : peek ts1 = Tok.tRBrace
              · rw [if_pos hrb] at h
                simp only [Except.ok.injEq, Prod.mk.injEq] at h
                obtain ⟨hn, hrest⟩ := h
                obtain ⟨pre, st, f', tsL, hss, hb, hstm, -⟩ :=
                  blockLoop_last f (adv ts) ss0 lastE ts1 hbl
                have hlast : lastE = true := (Bool.and_eq_true _ _ |>.mp hcond).2
                refine ⟨pre, st, ?_, ⟨f, ts1, ?_⟩, ⟨f', tsL, ts1, ?_, hstm⟩⟩
                · rw [← hn, hss]
                  simp [List.dropLast_concat, List.getLastD_concat]
                · rw [hbl, hss, hlast]
                · rw [← hb, hlast]
              · rw [if_neg hrb] at h; exact Except.noConfusion h

theorem block_trailing_expression_witness :
    block 1 [Tok.tLBrace, Tok.tRBrace]
      = .error "expecting a trailing expression at the end of a block"
    ∧ block 6 [Tok.tLBrace, Tok.tStr "a", Tok.tRBrace]
      = .ok (Node.Block [] (Node.String "a"), [])
    ∧ (∃ ss e, Node.Block [] (Node.String "a") = Node.Block ss e
        ∧ (∃ f1 ts2, blockLoop f1 (adv [Tok.tLBrace, Tok.tStr "a", Tok.tRBrace])
            = .ok (ss ++ [e], true, ts2))
        ∧ (∃ f' tsL ts2, peek_is_expr (peek tsL) = true
            ∧ statement f' tsL = .ok (e, ts2))) :=
  ⟨block_trailing_expression.1 0 [Tok.tRBrace] (by rfl),
   block_trailing_expression.2.2.1 5 [Tok.tStr "a", Tok.tRBrace] [] (Node.String "a")
     [Tok.tRBrace] (by rfl) (by rfl) (by rfl),
   block_trailing_expression.2.2.2 6 [Tok.tLBrace, Tok.tStr "a", Tok.tRBrace]
     (Node.Block [] (Node.String "a")) []
     (block_trailing_expression.2.2.1 5 [Tok.tStr "a", Tok.tRBrace] [] (Node.String "a")
       [Tok.tRBrace] (by rfl) (by rfl) (by rfl))⟩

/-- C4: hex and binary string decoding read the digit sequence right to
left, skip underscore bytes, pack every two hex digits (respectively every
eight binary digits) into one byte, and reverse the accumulated buffer at
the end, so the payload appears in natural left-to-right order; the hex
digits 4869 decode to the bytes 0x48 0x69 (and the same bits in binary
decode identically). -/
theorem hex_bin_right_to_left_decode :
    (∀ l : List Char, hex_string l = hex_string (l.filter (· ≠ '_')))
    ∧ (∀ ds : List Char, '_' ∉ ds → hex_string ds = (pairBytesRev ds.reverse).reverse)
    ∧ hex_string ['4', '8', '6', '9'] = [0x48, 0x69]
    ∧ (∀ l : List Char, bin_string l = bin_string (l.filter (· ≠ '_')))
    ∧ (∀ ds : List Char, '_' ∉ ds → bin_string ds = (byteGroupsRev ds.reverse).reverse)
    ∧ bin_string "0100100001101001".toList = [0x48, 0x69] := by
  refine ⟨?_, hex_string_pairs, by decide, ?_, bin_string_groups, by decide⟩
  · intro l
    unfold hex_string
    rw [hexAccum_filter l.reverse 0 [], List.filter_reverse]
  · intro l
    unfold bin_string
    rw [binAccum_filter l.reverse 0 [], List.filter_reverse]

theorem hex_bin_right_to_left_decode_witness :
    hex_string ['4', '8'] = (pairBytesRev ['4', '8'].reverse).reverse
    ∧ bin_string ['1', '0'] = (byteGroupsRev ['1', '0'].reverse).reverse :=
  ⟨hex_bin_right_to_left_decode.2.1 ['4', '8'] (by decide),
   hex_bin_right_to_left_decode.2.2.2.2.1 ['1', '0'] (by decide)⟩

/-- C5: paragraph-string post-processing is idempotent — applying
`para_string` to an already processed result returns it unchanged, so
`p (p x) = p x` (composition through `Option.bind`, since the operation is
undefined on all-whitespace input). -/
theorem para_string_idempotent (s : List Char) :
    (para_string s).bind para_string = para_string s := by
  cases h : para_string s with
  | none => rfl
  | some y =>
    obtain ⟨hne, hna, hws, hh, hl⟩ := para_some_props s y h
    show para_string y = some y
    exact para_fixed y hne hna hws hh hl

/-- C6: whenever `para_string` produces a payload, that payload is exactly
the claim's pipeline — collapse each whitespace run to a single byte,
replace every whitespace byte by a space, then strip exactly one leading
and exactly one trailing whitespace byte (one byte each, never more); a
concrete example exercises every stage. -/
theorem para_string_matches_description :
    (∀ s y : List Char, para_string s = some y → y = paraSpec s)
    ∧ para_string " a \t\n b ".toList = some "a b".toList := by
  refine ⟨?_, by decide⟩
  intro s y h
  rw [paraSpec, ← collapse_spec_eq]
  exact para_some_eq s y h

theorem para_string_matches_description_witness :
    "a b".toList = paraSpec " a \t\n b ".toList :=
  para_string_matches_description.1 " a \t\n b ".toList "a b".toList (by decide)

/-- C7: the concatenation operator `..` is right-associative: parsing
`a .. b .. c` (each operand a primary expression) yields
`Concat a (Concat b c)`, because after one primary the parser makes a
single recursive call into `expression` for the whole right-hand side. -/
theorem concat_right_assoc (f : Nat) (ts ts1 ts2 ts3 : List Tok) (a b c : Node)
    (h1 : primaryE (f + 2) ts = .ok (a, Tok.tCat :: ts1))
    (h2 : primaryE (f + 1) ts1 = .ok (b, Tok.tCat :: ts2))
    (h3 : primaryE f ts2 = .ok (c, ts3))
    (h4 : peek ts3 ≠ Tok.tCat) :
    expression (f + 3) ts = .ok (Node.Concat a (Node.Concat b c), ts3) := by
  rw [expression]
  simp only [h1]
  simp only [peek, adv]
  rw [if_pos trivial, expression]
  simp only [h2]
  simp only [peek, adv]
  rw [if_pos trivial, expression]
  simp only [h3]
  rw [if_neg h4]

theorem concat_right_assoc_witness :
    expression 5 [Tok.tStr "a", Tok.tCat, Tok.tStr "b", Tok.tCat, Tok.tStr "c"]
      = .ok (Node.Concat (Node.String "a")
          (Node.Concat (Node.String "b") (Node.String "c")), []) :=
  concat_right_assoc 2 [Tok.tStr "a", Tok.tCat, Tok.tStr "b", Tok.tCat, Tok.tStr "c"]
    [Tok.tStr "b", Tok.tCat, Tok.tStr "c"] [Tok.tStr "c"] []
    (Node.String "a") (Node.String "b") (Node.String "c")
    (by rfl) (by rfl) (by rfl) (by decide)

/-- C8: a `let` whose parameter list reaches a reserved keyword raises the
keyword-conflict parse error naming that keyword, and no `Fn` node is
completed (the parse returns an error, not a node). -/
theorem let_param_keyword_error (f : Nat) (nm : String) (ids : List String) (kw : Tok)
    (rest : List Tok) (hkw : peek_is_reserved_name kw = true) :
    statement (f + 2) (Tok.tLet :: Tok.tIdent nm :: Tok.tLParen ::
        (ids.flatMap (fun i => [Tok.tIdent i, Tok.tComma]) ++ kw :: rest))
      = .error ("parameter name \x27" ++ tokStr kw ++ "\x27 conflicts with keyword.") := by
  have hnid : ∀ s, kw ≠ Tok.tIdent s := by
    intro s e
    rw [e] at hkw
    simp [peek_is_reserved_name] at hkw
  rw [statement]
  simp only [peek]
  rw [letStmt]
  simp only [adv, peek]
  rw [if_pos trivial]
  rw [paramLoop_keywords ids [] kw rest hnid]
  simp [hkw, peek]

theorem let_param_keyword_error_witness :
    statement 2 [Tok.tLet, Tok.tIdent "f", Tok.tLParen, Tok.tIdent "x", Tok.tComma, Tok.tLet]
      = .error ("parameter name \x27" ++ tokStr Tok.tLet ++ "\x27 conflicts with keyword.") :=
  let_param_keyword_error 0 "f" ["x"] Tok.tLet [] (by rfl)

/-- C9: paragraph-string processing is defined exactly on the inputs with at
least one non-whitespace byte: it hits the unguarded `str.front()` /
`str.back()` reads (modelled `none`) precisely when the input is empty or
all whitespace — e.g. the payloads of `p#""#` and `p#" "#`. -/
theorem para_string_none_iff_all_ws (s : List Char) :
    para_string s = none ↔ s.all is_whitespace = true := by
  constructor
  · intro h
    rw [List.all_eq_true]
    by_contra hall
    push_neg at hall
    obtain ⟨c, hc, hcw⟩ := hall
    have hcw' : is_whitespace c = false := by
      cases hx : is_whitespace c
      · rfl
      · exact absurd hx hcw
    have hmem : c ∈ (collapseWs s).map wsToSpace := by
      have h1 : c ∈ collapseWs s := by
        cases s with
        | nil => simp at hc
        | cons a l => exact mem_collapseWsGo a l c hcw' hc
      have h2 : wsToSpace c = c := by
        unfold wsToSpace
        rw [if_neg (by rw [hcw']; simp)]
      rw [← h2]
      exact List.mem_map_of_mem _ h1
    simp only [para_string] at h
    cases hm : (collapseWs s).map wsToSpace with
    | nil => rw [hm] at hmem; simp at hmem
    | cons c1 cs1 =>
      simp only [hm] at h
      rw [hm] at hmem
      by_cases hc1 : is_whitespace c1 = true
      · rw [if_pos hc1] at h
        have hcc : c ∈ cs1 := by
          rcases List.mem_cons.mp hmem with rfl | hm2
          · rw [hc1] at hcw'; simp at hcw'
          · exact hm2
        cases hg : cs1.getLast? with
        | none =>
          rw [List.getLast?_eq_none_iff] at hg
          exact absurd hg (List.ne_nil_of_mem hcc)
        | some b => simp only [hg] at h; exact Option.noConfusion h
      · rw [if_neg hc1] at h
        cases hg : (c1 :: cs1).getLast? with
        | none => rw [List.getLast?_eq_none_iff] at hg; simp at hg
        | some b => simp only [hg] at h; exact Option.noConfusion h
  · intro h
    cases s with
    | nil => rfl
    | cons a l =>
      rw [List.all_eq_true] at h
      have hcol : collapseWs (a :: l) = [a] :=
        collapseWsGo_allWs a l (h a (by simp)) (fun x hx => h x (by simp [hx]))
      have hsp : wsToSpace a = ' ' := by
        unfold wsToSpace
        rw [if_pos (h a (by simp))]
      simp only [para_string, hcol, List.map_cons, List.map_nil, hsp]
      rfl

theorem para_string_none_iff_all_ws_witness : para_string [' '] = none :=
  (para_string_none_iff_all_ws [' ']).mpr (by decide)

/-- C10: a hex literal with an odd digit count (underscores excluded) is
never rejected: the leftmost digit alone forms the first payload byte, a
value below 16 (high nibble zero), and the payload has `(n + 1) / 2`
bytes. -/
theorem hex_odd_digit_count (d : Char) (ds : List Char) (h : '_' ∉ d :: ds)
    (hodd : (d :: ds).length % 2 = 1) :
    hex_string (d :: ds) = hex_to_digit d :: hex_string ds
    ∧ (hex_string (d :: ds)).length = ((d :: ds).length + 1) / 2
    ∧ hex_to_digit d < 16 := by
  have hds : '_' ∉ ds := fun m => h (by simp [m])
  have h1 := hex_string_pairs (d :: ds) h
  have h2 := hex_string_pairs ds hds
  have hrev : (d :: ds).reverse = ds.reverse ++ [d] := by simp
  have heven : ds.length % 2 = 0 := by simp at hodd; omega
  refine ⟨?_, ?_, hex_to_digit_lt d⟩
  · rw [h1, hrev, pairBytesRev_concat_even _ _ (by simpa using heven)]
    simp [h2]
  · rw [h1, hrev, pairBytesRev_concat_even _ _ (by simpa using heven)]
    simp [pairBytesRev_length, List.length_reverse]
    omega

theorem hex_odd_digit_count_witness :
    hex_string ['1', '4', '8'] = hex_to_digit '1' :: hex_string ['4', '8']
    ∧ (hex_string ['1', '4', '8']).length = ((['1', '4', '8'] : List Char).length + 1) / 2
    ∧ hex_to_digit '1' < 16 :=
  hex_odd_digit_count '1' ['4', '8'] (by decide) (by decide)

end wpp
